import Mathlib

/-!
Verification of the cost-distribution core of the `Costos_importacion`
repository (a two-phase proportional import-cost allocator) together with
its two line-oriented input parsers.

Numbers are embedded as exact rationals (`ℚ`); the JavaScript
`toLowerCase` call is modelled by ASCII lowering (`Char.toLower`), which is
all the general marker `"comun"` needs; `parseFloat` / `parseInt` are
modelled on the decimal literal grammar (a sign, digits, a decimal point
and an optional exponent, parsed from the front of the trimmed string),
with `NaN` represented by `none`.
-/

/-- A parsed product line: `name, unitCost, quantity, tariffRate`. -/
structure Product where
  name : String
  unitCost : ℚ
  quantity : ℚ
  tariffRate : String
  deriving DecidableEq

/-- A parsed service line: `providerName, serviceName, cost, distributionRule`. -/
structure Service where
  providerName : String
  serviceName : String
  cost : ℚ
  distributionRule : String
  deriving DecidableEq

/-- The enriched product record produced by `calculateDistributedCosts`. -/
structure ProcessedProduct where
  name : String
  unitCost : ℚ
  quantity : ℚ
  tariffRate : String
  initialCost : ℚ
  costAfterGeneralServices : ℚ
  finalCost : ℚ
  allocatedGeneralCostSum : ℚ
  allocatedSpecificCostSum : ℚ
  deriving DecidableEq

/-- ASCII model of JavaScript `toLowerCase()`. -/
def jsToLower (s : String) : String :=
  String.mk (s.toList.map Char.toLower)

/-- The initial `ProcessedProduct` built from a `Product`
(the `products.map` at the start of `calculateDistributedCosts`). -/
def initProcessed (p : Product) : ProcessedProduct :=
  { name := p.name
    unitCost := p.unitCost
    quantity := p.quantity
    tariffRate := p.tariffRate
    initialCost := p.unitCost * p.quantity
    costAfterGeneralServices := p.unitCost * p.quantity
    finalCost := p.unitCost * p.quantity
    allocatedGeneralCostSum := 0
    allocatedSpecificCostSum := 0 }

/-- Services whose `distributionRule`, lowercased, is `"comun"`. -/
def comunServices (services : List Service) : List Service :=
  services.filter (fun s => jsToLower s.distributionRule == "comun")

/-- `totalComunServiceCost` from the source: the general cost pool. -/
def totalComunServiceCost (services : List Service) : ℚ :=
  ((comunServices services).map Service.cost).sum

/-- `totalInitialProductValue` from the source. -/
def totalInitialProductValue (tpp : List ProcessedProduct) : ℚ :=
  (tpp.map ProcessedProduct.initialCost).sum

/-- The phase-1 update of one product (body of the `map` in step 1). -/
def applyGeneral (totalComun totalInitial : ℚ) (p : ProcessedProduct) : ProcessedProduct :=
  let allocatedGeneralCost := (p.initialCost / totalInitial) * totalComun
  { p with
    costAfterGeneralServices := p.costAfterGeneralServices + allocatedGeneralCost
    finalCost := p.finalCost + allocatedGeneralCost
    allocatedGeneralCostSum := p.allocatedGeneralCostSum + allocatedGeneralCost }

/-- Step 1 of `calculateDistributedCosts`: distribute the `"comun"` pool. -/
def distributeGeneral (products : List Product) (services : List Service) :
    List ProcessedProduct :=
  let tpp := products.map initProcessed
  let g := totalComunServiceCost services
  let t := totalInitialProductValue tpp
  if 0 < g ∧ 0 < t then tpp.map (applyGeneral g t) else tpp

/-- One insertion into a JavaScript `Set` viewed as a duplicate-free list
(first occurrence kept, insertion order preserved). -/
def insertUnique (acc : List String) (x : String) : List String :=
  if x ∈ acc then acc else acc ++ [x]

/-- `Array.from(new Set(l))`: first occurrences of `l` in order. -/
def jsSetDedup (l : List String) : List String :=
  l.foldl insertUnique []

/-- The distinct non-`"comun"` distribution rules, in first-occurrence order. -/
def specificTariffRules (services : List Service) : List String :=
  jsSetDedup
    ((services.filter (fun s => jsToLower s.distributionRule != "comun")).map
      Service.distributionRule)

/-- Services whose `distributionRule` equals `rule` exactly. -/
def servicesForRule (services : List Service) (rule : String) : List Service :=
  services.filter (fun s => s.distributionRule == rule)

/-- `totalCostForThisRule` from the source. -/
def totalCostForRule (services : List Service) (rule : String) : ℚ :=
  ((servicesForRule services rule).map Service.cost).sum

/-- The `findIndex` test of the source: equality of name, tariff rate,
unit cost and quantity. -/
def matchesFields (mp p : ProcessedProduct) : Bool :=
  p.name == mp.name && p.tariffRate == mp.tariffRate &&
    decide (p.unitCost = mp.unitCost) && decide (p.quantity = mp.quantity)

/-- JavaScript `findIndex`: `none` stands for `-1`. -/
def jsFindIndex (pred : ProcessedProduct → Bool) : List ProcessedProduct → Option ℕ
  | [] => none
  | p :: ps => if pred p then some 0 else (jsFindIndex pred ps).map (· + 1)

/-- In-place update of the element at position `i` (a no-op out of range). -/
def modifyAt : List ProcessedProduct → ℕ → (ProcessedProduct → ProcessedProduct) →
    List ProcessedProduct
  | [], _, _ => []
  | p :: ps, 0, f => f p :: ps
  | p :: ps, i + 1, f => p :: modifyAt ps i f

/-- The phase-2 mutation of one located product:
`finalCost += amount; allocatedSpecificCostSum += amount`. -/
def specUpdate (amount : ℚ) (p : ProcessedProduct) : ProcessedProduct :=
  { p with
    finalCost := p.finalCost + amount
    allocatedSpecificCostSum := p.allocatedSpecificCostSum + amount }

/-- Body of the `forEach` over `matchingProducts`: locate `mp` by field
equality in the current list and add its share there. -/
def applyRuleToProduct (totalBase totalCost : ℚ) (acc : List ProcessedProduct)
    (mp : ProcessedProduct) : List ProcessedProduct :=
  match jsFindIndex (matchesFields mp) acc with
  | some i => modifyAt acc i (specUpdate ((mp.costAfterGeneralServices / totalBase) * totalCost))
  | none => acc

/-- Processing of one specific rule (body of the `forEach` over
`specificTariffRules`). -/
def ruleStep (services : List Service) (tpp : List ProcessedProduct) (rule : String) :
    List ProcessedProduct :=
  let totalCost := totalCostForRule services rule
  let matching := tpp.filter (fun p => p.tariffRate == rule)
  if matching.length = 0 then tpp
  else
    let totalBase := (matching.map ProcessedProduct.costAfterGeneralServices).sum
    if 0 < totalCost ∧ 0 < totalBase then
      matching.foldl (applyRuleToProduct totalBase totalCost) tpp
    else tpp

/-- The two-phase allocator `calculateDistributedCosts` of the source. -/
def calculateDistributedCosts (products : List Product) (services : List Service) :
    List ProcessedProduct :=
  (specificTariffRules services).foldl (ruleStep services) (distributeGeneral products services)

/-- Splitting a character list at every occurrence of `c`
(JavaScript `String.split`, which keeps empty segments). -/
def splitOnChar (c : Char) : List Char → List (List Char)
  | [] => [[]]
  | x :: xs =>
    match splitOnChar c xs with
    | [] => [[]]
    | ys :: rest => if x = c then [] :: ys :: rest else (x :: ys) :: rest

/-- JavaScript `s.split(sep)` for a one-character separator. -/
def jsSplit (sep : Char) (s : String) : List String :=
  (splitOnChar sep s.toList).map String.mk

/-- JavaScript `s.trim()`: remove surrounding whitespace. -/
def jsTrim (s : String) : String :=
  String.mk (((s.toList.dropWhile Char.isWhitespace).reverse.dropWhile
    Char.isWhitespace).reverse)

/-- A parse failure: the reported 1-based line number and the message text. -/
structure ParseError where
  line : ℕ
  message : String
  deriving DecidableEq

/-- Decimal digits to a natural number. -/
def digitsToNat (ds : List Char) : ℕ :=
  ds.foldl (fun n c => 10 * n + (c.toNat - 48)) 0

/-- Exponent part of a float literal (`e`/`E` already consumed); an empty
digit run contributes nothing, as in `parseFloat`. -/
def floatExponent (cs : List Char) : ℤ :=
  let signAndRest : ℤ × List Char :=
    match cs with
    | '-' :: rest => (-1, rest)
    | '+' :: rest => (1, rest)
    | _ => (1, cs)
  let ds := signAndRest.2.takeWhile Char.isDigit
  if ds.isEmpty then 0 else signAndRest.1 * (digitsToNat ds : ℤ)

/-- Model of JavaScript `parseFloat` on a trimmed string: the longest
leading decimal literal, `none` for `NaN`. -/
def jsParseFloat (s : String) : Option ℚ :=
  let signAndRest : ℚ × List Char :=
    match s.toList with
    | '-' :: rest => (-1, rest)
    | '+' :: rest => (1, rest)
    | _ => (1, s.toList)
  let intDigits := signAndRest.2.takeWhile Char.isDigit
  let afterInt := signAndRest.2.dropWhile Char.isDigit
  let fracAndRest : List Char × List Char :=
    match afterInt with
    | '.' :: rest => (rest.takeWhile Char.isDigit, rest.dropWhile Char.isDigit)
    | _ => ([], afterInt)
  if intDigits.isEmpty ∧ fracAndRest.1.isEmpty then none
  else
    let mantissa : ℚ :=
      signAndRest.1 * ((digitsToNat (intDigits ++ fracAndRest.1) : ℚ) /
        (10 : ℚ) ^ fracAndRest.1.length)
    let e : ℤ :=
      match fracAndRest.2 with
      | 'e' :: rest => floatExponent rest
      | 'E' :: rest => floatExponent rest
      | _ => 0
    some (mantissa * (10 : ℚ) ^ e)

/-- Model of JavaScript `parseInt(s, 10)` on a trimmed string. -/
def jsParseInt (s : String) : Option ℚ :=
  let signAndRest : ℚ × List Char :=
    match s.toList with
    | '-' :: rest => (-1, rest)
    | '+' :: rest => (1, rest)
    | _ => (1, s.toList)
  let ds := signAndRest.2.takeWhile Char.isDigit
  if ds.isEmpty then none else some (signAndRest.1 * (digitsToNat ds : ℚ))

/-- Parsing of one non-blank product line; `index` is its 0-based position
among the non-blank lines, reported as `index + 1`. -/
def parseProductLine (index : ℕ) (line : String) : Except ParseError Product :=
  match (jsSplit ',' line).map jsTrim with
  | [name, unitCostStr, quantityStr, tariffRate] =>
    match jsParseFloat unitCostStr with
    | none => Except.error ⟨index + 1, "Costo unitario inválido"⟩
    | some unitCost =>
      if unitCost < 0 then Except.error ⟨index + 1, "Costo unitario inválido"⟩
      else
        match jsParseInt quantityStr with
        | none => Except.error ⟨index + 1, "Cantidad inválida"⟩
        | some quantity =>
          if quantity < 0 then Except.error ⟨index + 1, "Cantidad inválida"⟩
          else if name == "" then
            Except.error ⟨index + 1, "Nombre del producto no puede estar vacío"⟩
          else if tariffRate == "" then
            Except.error ⟨index + 1, "Tasa arancelaria no puede estar vacía"⟩
          else Except.ok ⟨name, unitCost, quantity, tariffRate⟩
  | _ =>
    Except.error ⟨index + 1,
      "Se esperan 4 campos (Nombre,CostoUnitario,Cantidad,TasaArancelaria)"⟩

/-- Parsing of one non-blank service line. -/
def parseServiceLine (index : ℕ) (line : String) : Except ParseError Service :=
  match (jsSplit ',' line).map jsTrim with
  | [providerName, serviceName, costStr, distributionRule] =>
    match jsParseFloat costStr with
    | none => Except.error ⟨index + 1, "Costo de servicio inválido"⟩
    | some cost =>
      if cost < 0 then Except.error ⟨index + 1, "Costo de servicio inválido"⟩
      else if providerName == "" then
        Except.error ⟨index + 1, "Nombre de proveedor no puede estar vacío"⟩
      else if serviceName == "" then
        Except.error ⟨index + 1, "Nombre de servicio no puede estar vacío"⟩
      else if distributionRule == "" then
        Except.error ⟨index + 1, "Tasa arancelaria asignada no puede estar vacía"⟩
      else Except.ok ⟨providerName, serviceName, cost, distributionRule⟩
  | _ =>
    Except.error ⟨index + 1,
      "Se esperan 4 campos (Proveedor,Servicio,Costo,TasaArancelariaAsignada)"⟩

/-- The `lines.map((line, index) => ...)` of `parseProductsFile`: the first
failing line aborts the whole parse. -/
def parseProductLines : ℕ → List String → Except ParseError (List Product)
  | _, [] => Except.ok []
  | index, line :: rest =>
    match parseProductLine index line with
    | Except.error e => Except.error e
    | Except.ok p =>
      match parseProductLines (index + 1) rest with
      | Except.error e => Except.error e
      | Except.ok ps => Except.ok (p :: ps)

/-- Same traversal for service lines. -/
def parseServiceLines : ℕ → List String → Except ParseError (List Service)
  | _, [] => Except.ok []
  | index, line :: rest =>
    match parseServiceLine index line with
    | Except.error e => Except.error e
    | Except.ok s =>
      match parseServiceLines (index + 1) rest with
      | Except.error e => Except.error e
      | Except.ok ss => Except.ok (s :: ss)

/-- `content.split('\n').filter(line => line.trim() !== '')`. -/
def nonBlankLines (content : String) : List String :=
  (jsSplit '\n' content).filter (fun l => jsTrim l != "")

/-- `parseProductsFile` from the source. -/
def parseProductsFile (content : String) : Except ParseError (List Product) :=
  parseProductLines 0 (nonBlankLines content)

/-- `parseServicesFile` from the source. -/
def parseServicesFile (content : String) : Except ParseError (List Service) :=
  parseServiceLines 0 (nonBlankLines content)

/-! ### Basic lemmas about the phase-2 building blocks -/

theorem modifyAt_length (l : List ProcessedProduct) (i : ℕ)
    (f : ProcessedProduct → ProcessedProduct) : (modifyAt l i f).length = l.length := by
  induction l generalizing i with
  | nil => rfl
  | cons p ps ih =>
    cases i with
    | zero => rfl
    | succ j => simpa [modifyAt] using ih j

theorem modifyAt_get (l : List ProcessedProduct) (i j : ℕ)
    (f : ProcessedProduct → ProcessedProduct) (hj : j < l.length)
    (hj' : j < (modifyAt l i f).length) :
    (modifyAt l i f).get ⟨j, hj'⟩ =
      if j = i then f (l.get ⟨j, hj⟩) else l.get ⟨j, hj⟩ := by
  induction l generalizing i j with
  | nil => cases hj
  | cons p ps ih =>
    cases i with
    | zero =>
      cases j with
      | zero => simp [modifyAt]
      | succ j' => simp [modifyAt]
    | succ i' =>
      cases j with
      | zero => simp [modifyAt]
      | succ j' =>
        have hj₂ : j' < ps.length := Nat.lt_of_succ_lt_succ hj
        have hj₂' : j' < (modifyAt ps i' f).length := Nat.lt_of_succ_lt_succ hj'
        simpa [modifyAt, Nat.succ_eq_add_one] using ih i' j' hj₂ hj₂'

theorem mem_modifyAt {l : List ProcessedProduct} {i : ℕ}
    {f : ProcessedProduct → ProcessedProduct} {p : ProcessedProduct}
    (hp : p ∈ modifyAt l i f) : p ∈ l ∨ ∃ q ∈ l, p = f q := by
  induction l generalizing i with
  | nil => cases hp
  | cons x xs ih =>
    cases i with
    | zero =>
      rcases List.mem_cons.mp hp with h | h
      · exact Or.inr ⟨x, List.mem_cons_self _ _, h⟩
      · exact Or.inl (List.mem_cons_of_mem _ h)
    | succ i' =>
      rcases List.mem_cons.mp hp with h | h
      · exact Or.inl (h ▸ List.mem_cons_self _ _)
      · rcases ih h with h' | ⟨q, hq, hq'⟩
        · exact Or.inl (List.mem_cons_of_mem _ h')
        · exact Or.inr ⟨q, List.mem_cons_of_mem _ hq, hq'⟩

theorem jsFindIndex_eq_some {pred : ProcessedProduct → Bool} {l : List ProcessedProduct}
    {i : ℕ} (h : jsFindIndex pred l = some i) :
    ∃ hi : i < l.length, pred (l.get ⟨i, hi⟩) = true := by
  induction l generalizing i with
  | nil => cases h
  | cons p ps ih =>
    by_cases hp : pred p
    · simp [jsFindIndex, hp] at h
      exact h ▸ ⟨Nat.succ_pos _, by simpa using hp⟩
    · simp [jsFindIndex, hp] at h
      obtain ⟨j, hj, rfl⟩ := h
      obtain ⟨hjlt, hjp⟩ := ih hj
      exact ⟨Nat.succ_lt_succ hjlt, by simpa using hjp⟩

theorem jsFindIndex_isSome {pred : ProcessedProduct → Bool} {l : List ProcessedProduct}
    (h : ∃ x ∈ l, pred x = true) : ∃ i, jsFindIndex pred l = some i := by
  induction l with
  | nil => simp at h
  | cons p ps ih =>
    by_cases hp : pred p
    · exact ⟨0, by simp [jsFindIndex, hp]⟩
    · obtain ⟨x, hx, hpx⟩ := h
      rcases List.mem_cons.mp hx with rfl | hx'
      · exact absurd hpx hp
      · obtain ⟨j, hj⟩ := ih ⟨x, hx', hpx⟩
        exact ⟨j + 1, by simp [jsFindIndex, hp, hj]⟩

theorem matchesFields_iff {mp p : ProcessedProduct} :
    matchesFields mp p = true ↔
      p.name = mp.name ∧ p.tariffRate = mp.tariffRate ∧
        p.unitCost = mp.unitCost ∧ p.quantity = mp.quantity := by
  simp [matchesFields, Bool.and_eq_true, beq_iff_eq, decide_eq_true_eq, and_assoc]

theorem matchesFields_self (p : ProcessedProduct) : matchesFields p p = true :=
  matchesFields_iff.mpr ⟨rfl, rfl, rfl, rfl⟩

/-! ### What phase 2 leaves unchanged

`PreservesCore p q` says that `q` is `p` with (possibly) some nonzero
amount added simultaneously to `finalCost` and `allocatedSpecificCostSum`,
all other fields untouched -- exactly the shape of every phase-2 write. -/

def PreservesCore (p q : ProcessedProduct) : Prop :=
  q.name = p.name ∧ q.unitCost = p.unitCost ∧ q.quantity = p.quantity ∧
    q.tariffRate = p.tariffRate ∧ q.initialCost = p.initialCost ∧
    q.costAfterGeneralServices = p.costAfterGeneralServices ∧
    q.allocatedGeneralCostSum = p.allocatedGeneralCostSum ∧
    q.finalCost - q.allocatedSpecificCostSum = p.finalCost - p.allocatedSpecificCostSum

theorem preservesCore_refl (p : ProcessedProduct) : PreservesCore p p :=
  ⟨rfl, rfl, rfl, rfl, rfl, rfl, rfl, rfl⟩

theorem preservesCore_trans {p q r : ProcessedProduct}
    (h₁ : PreservesCore p q) (h₂ : PreservesCore q r) : PreservesCore p r := by
  obtain ⟨a₁, b₁, c₁, d₁, e₁, f₁, g₁, i₁⟩ := h₁
  obtain ⟨a₂, b₂, c₂, d₂, e₂, f₂, g₂, i₂⟩ := h₂
  exact ⟨a₂.trans a₁, b₂.trans b₁, c₂.trans c₁, d₂.trans d₁, e₂.trans e₁,
    f₂.trans f₁, g₂.trans g₁, i₂.trans i₁⟩

def CoreRel (l₁ l₂ : List ProcessedProduct) : Prop :=
  List.Forall₂ PreservesCore l₁ l₂

theorem coreRel_refl (l : List ProcessedProduct) : CoreRel l l :=
  List.forall₂_same.mpr fun x _ => preservesCore_refl x

theorem coreRel_trans {l₁ l₂ l₃ : List ProcessedProduct}
    (h₁ : CoreRel l₁ l₂) (h₂ : CoreRel l₂ l₃) : CoreRel l₁ l₃ := by
  induction h₁ generalizing l₃ with
  | nil => cases h₂; exact List.Forall₂.nil
  | cons hpq _ ih =>
    cases h₂ with
    | cons hqr htail => exact List.Forall₂.cons (preservesCore_trans hpq hqr) (ih htail)

theorem preservesCore_specUpdate (δ : ℚ) (p : ProcessedProduct) :
    PreservesCore p (specUpdate δ p) := by
  refine ⟨rfl, rfl, rfl, rfl, rfl, rfl, rfl, ?_⟩
  simp [specUpdate]

theorem coreRel_modifyAt_specUpdate (l : List ProcessedProduct) (i : ℕ) (δ : ℚ) :
    CoreRel l (modifyAt l i (specUpdate δ)) := by
  induction l generalizing i with
  | nil => exact List.Forall₂.nil
  | cons p ps ih =>
    cases i with
    | zero => exact List.Forall₂.cons (preservesCore_specUpdate δ p) (coreRel_refl ps)
    | succ i' => exact List.Forall₂.cons (preservesCore_refl p) (ih i')

theorem coreRel_applyRuleToProduct (b c : ℚ) (acc : List ProcessedProduct)
    (mp : ProcessedProduct) : CoreRel acc (applyRuleToProduct b c acc mp) := by
  unfold applyRuleToProduct
  cases h : jsFindIndex (matchesFields mp) acc with
  | none => exact coreRel_refl acc
  | some i => exact coreRel_modifyAt_specUpdate acc i _

theorem coreRel_foldl_applyRule (b c : ℚ) :
    ∀ (ms acc : List ProcessedProduct),
      CoreRel acc (ms.foldl (applyRuleToProduct b c) acc)
  | [], acc => coreRel_refl acc
  | mp :: ms, acc =>
    coreRel_trans (coreRel_applyRuleToProduct b c acc mp)
      (coreRel_foldl_applyRule b c ms (applyRuleToProduct b c acc mp))

theorem coreRel_ruleStep (services : List Service) (tpp : List ProcessedProduct)
    (rule : String) : CoreRel tpp (ruleStep services tpp rule) := by
  simp only [ruleStep]
  split
  · exact coreRel_refl tpp
  · split
    · exact coreRel_foldl_applyRule _ _ _ tpp
    · exact coreRel_refl tpp

theorem coreRel_foldl_ruleStep (services : List Service) :
    ∀ (rules : List String) (tpp : List ProcessedProduct),
      CoreRel tpp (rules.foldl (ruleStep services) tpp)
  | [], tpp => coreRel_refl tpp
  | r :: rules, tpp =>
    coreRel_trans (coreRel_ruleStep services tpp r)
      (coreRel_foldl_ruleStep services rules (ruleStep services tpp r))

theorem coreRel_calculate (products : List Product) (services : List Service) :
    CoreRel (distributeGeneral products services)
      (calculateDistributedCosts products services) :=
  coreRel_foldl_ruleStep services _ _

/-! ### Facts about the phase-1 output -/

theorem applyGeneral_fields (g t : ℚ) (p : ProcessedProduct) :
    (applyGeneral g t p).name = p.name ∧ (applyGeneral g t p).unitCost = p.unitCost ∧
      (applyGeneral g t p).quantity = p.quantity ∧
      (applyGeneral g t p).tariffRate = p.tariffRate ∧
      (applyGeneral g t p).initialCost = p.initialCost ∧
      (applyGeneral g t p).allocatedSpecificCostSum = p.allocatedSpecificCostSum := by
  simp [applyGeneral]

theorem distributeGeneral_length (products : List Product) (services : List Service) :
    (distributeGeneral products services).length = products.length := by
  simp only [distributeGeneral]
  split <;> simp

theorem mem_distributeGeneral {products : List Product} {services : List Service}
    {q : ProcessedProduct} (hq : q ∈ distributeGeneral products services) :
    ∃ p ∈ products,
      q = initProcessed p ∨
        q = applyGeneral (totalComunServiceCost services)
              (totalInitialProductValue (products.map initProcessed)) (initProcessed p) := by
  simp only [distributeGeneral] at hq
  split at hq
  · rw [List.map_map] at hq
    obtain ⟨p, hp, rfl⟩ := List.mem_map.mp hq
    exact ⟨p, hp, Or.inr rfl⟩
  · obtain ⟨p, hp, rfl⟩ := List.mem_map.mp hq
    exact ⟨p, hp, Or.inl rfl⟩

theorem distributeGeneral_invariants {products : List Product} {services : List Service}
    {q : ProcessedProduct} (hq : q ∈ distributeGeneral products services) :
    q.initialCost = q.unitCost * q.quantity ∧
      q.costAfterGeneralServices = q.initialCost + q.allocatedGeneralCostSum ∧
      q.finalCost = q.initialCost + q.allocatedGeneralCostSum ∧
      q.allocatedSpecificCostSum = 0 := by
  obtain ⟨p, _, h | h⟩ := mem_distributeGeneral hq <;> subst h
  · simp [initProcessed]
  · simp [applyGeneral, initProcessed]

theorem distributeGeneral_of_comun_zero {products : List Product} {services : List Service}
    (hg : totalComunServiceCost services = 0) :
    distributeGeneral products services = products.map initProcessed := by
  simp only [distributeGeneral]
  rw [if_neg]
  intro ⟨h1, _⟩
  rw [hg] at h1
  exact lt_irrefl 0 h1

theorem distributeGeneral_of_pos {products : List Product} {services : List Service}
    (hg : 0 < totalComunServiceCost services)
    (ht : 0 < totalInitialProductValue (products.map initProcessed)) :
    distributeGeneral products services =
      (products.map initProcessed).map
        (applyGeneral (totalComunServiceCost services)
          (totalInitialProductValue (products.map initProcessed))) := by
  simp only [distributeGeneral]
  rw [if_pos ⟨hg, ht⟩]

theorem distributeGeneral_general_alloc {products : List Product} {services : List Service}
    (hg : 0 < totalComunServiceCost services)
    (ht : 0 < totalInitialProductValue (products.map initProcessed)) :
    ∀ q ∈ distributeGeneral products services,
      q.allocatedGeneralCostSum =
        (q.initialCost / totalInitialProductValue (products.map initProcessed)) *
          totalComunServiceCost services := by
  intro q hq
  rw [distributeGeneral_of_pos hg ht, List.map_map] at hq
  obtain ⟨p, _, rfl⟩ := List.mem_map.mp hq
  simp [applyGeneral, initProcessed]

theorem distributeGeneral_sum_general_alloc {products : List Product}
    {services : List Service}
    (hg : 0 < totalComunServiceCost services)
    (ht : 0 < totalInitialProductValue (products.map initProcessed)) :
    ((distributeGeneral products services).map
        ProcessedProduct.allocatedGeneralCostSum).sum =
      totalComunServiceCost services := by
  set g := totalComunServiceCost services with hgdef
  set t := totalInitialProductValue (products.map initProcessed) with htdef
  rw [distributeGeneral_of_pos hg ht, List.map_map]
  have hfun : (ProcessedProduct.allocatedGeneralCostSum ∘ applyGeneral g t) =
      fun p : ProcessedProduct => p.allocatedGeneralCostSum + p.initialCost * (g / t) := by
    funext p
    simp [applyGeneral]
    rw [div_mul_eq_mul_div, mul_div_assoc]
  rw [hfun]
  have hsplit : ((products.map initProcessed).map
        (fun p : ProcessedProduct => p.allocatedGeneralCostSum + p.initialCost * (g / t))).sum
      = ((products.map initProcessed).map
          (fun p : ProcessedProduct => p.allocatedGeneralCostSum)).sum +
        ((products.map initProcessed).map
          (fun p : ProcessedProduct => p.initialCost * (g / t))).sum := by
    rw [← List.sum_map_add]
  rw [hsplit]
  have hzero : ((products.map initProcessed).map
      (fun p : ProcessedProduct => p.allocatedGeneralCostSum)).sum = 0 := by
    rw [List.map_map]
    apply List.sum_eq_zero
    intro x hx
    obtain ⟨p, _, rfl⟩ := List.mem_map.mp hx
    simp [initProcessed]
  rw [hzero, zero_add, List.sum_map_mul_right]
  have : ((products.map initProcessed).map
      (fun p : ProcessedProduct => p.initialCost)).sum = t := rfl
  rw [this, mul_comm, div_mul_cancel₀ g (ne_of_gt ht)]

theorem distributeGeneral_get_core (products : List Product) (services : List Service)
    (i : ℕ) (hi : i < products.length)
    (hi' : i < (distributeGeneral products services).length) :
    ((distributeGeneral products services).get ⟨i, hi'⟩).name =
        (products.get ⟨i, hi⟩).name ∧
      ((distributeGeneral products services).get ⟨i, hi'⟩).unitCost =
        (products.get ⟨i, hi⟩).unitCost ∧
      ((distributeGeneral products services).get ⟨i, hi'⟩).quantity =
        (products.get ⟨i, hi⟩).quantity ∧
      ((distributeGeneral products services).get ⟨i, hi'⟩).tariffRate =
        (products.get ⟨i, hi⟩).tariffRate := by
  by_cases h : 0 < totalComunServiceCost services ∧
      0 < totalInitialProductValue (products.map initProcessed)
  · rw [List.get_of_eq (distributeGeneral_of_pos h.1 h.2) ⟨i, hi'⟩]
    simp [applyGeneral, initProcessed]
  · have he : distributeGeneral products services = products.map initProcessed := by
      simp only [distributeGeneral]
      rw [if_neg h]
    rw [List.get_of_eq he ⟨i, hi'⟩]
    simp [initProcessed]

/-! ### Per-rule bookkeeping of `allocatedSpecificCostSum` -/

/-- The total specific allocation held by products whose `tariffRate` is `r`. -/
def sumSpecFor (r : String) (l : List ProcessedProduct) : ℚ :=
  ((l.filter (fun p => p.tariffRate == r)).map ProcessedProduct.allocatedSpecificCostSum).sum

theorem sumSpecFor_modifyAt (r : String) (l : List ProcessedProduct) (i : ℕ) (δ : ℚ)
    (hi : i < l.length) :
    sumSpecFor r (modifyAt l i (specUpdate δ)) =
      sumSpecFor r l + (if (l.get ⟨i, hi⟩).tariffRate = r then δ else 0) := by
  induction l generalizing i with
  | nil => cases hi
  | cons p ps ih =>
    cases i with
    | zero =>
      by_cases h : p.tariffRate = r
      · simp [sumSpecFor, modifyAt, specUpdate, List.filter_cons, h]
        ring
      · simp [sumSpecFor, modifyAt, specUpdate, List.filter_cons, h]
    | succ i' =>
      have hi₂ : i' < ps.length := Nat.lt_of_succ_lt_succ hi
      by_cases h : p.tariffRate = r
      · simp only [sumSpecFor, modifyAt, List.filter_cons, h] at *
        simp only [beq_self_eq_true, if_true, List.map_cons, List.sum_cons]
        rw [show (p :: ps).get ⟨i' + 1, hi⟩ = ps.get ⟨i', hi₂⟩ from rfl]
        have := ih i' hi₂
        simp only [sumSpecFor] at this
        rw [this]
        ring
      · simp only [sumSpecFor, modifyAt, List.filter_cons] at *
        have hb : (p.tariffRate == r) = false := beq_eq_false_iff_ne.mpr h
        simp only [hb, Bool.false_eq_true, if_false]
        rw [show (p :: ps).get ⟨i' + 1, hi⟩ = ps.get ⟨i', hi₂⟩ from rfl]
        have := ih i' hi₂
        simp only [sumSpecFor] at this
        rw [this]

theorem sumSpecFor_applyRule_ne {r : String} (b c : ℚ) (acc : List ProcessedProduct)
    {mp : ProcessedProduct} (hne : mp.tariffRate ≠ r) :
    sumSpecFor r (applyRuleToProduct b c acc mp) = sumSpecFor r acc := by
  unfold applyRuleToProduct
  cases hfind : jsFindIndex (matchesFields mp) acc with
  | none => rfl
  | some i =>
    obtain ⟨hi, hpred⟩ := jsFindIndex_eq_some hfind
    obtain ⟨-, htr, -, -⟩ := matchesFields_iff.mp hpred
    rw [sumSpecFor_modifyAt r acc i _ hi, htr, if_neg hne, add_zero]

theorem sumSpecFor_applyRule_eq {r : String} (b c : ℚ) (acc : List ProcessedProduct)
    {mp : ProcessedProduct} (htr : mp.tariffRate = r)
    (hex : ∃ x ∈ acc, matchesFields mp x = true) :
    sumSpecFor r (applyRuleToProduct b c acc mp) =
      sumSpecFor r acc + (mp.costAfterGeneralServices / b) * c := by
  unfold applyRuleToProduct
  obtain ⟨i, hfind⟩ := jsFindIndex_isSome hex
  rw [hfind]
  obtain ⟨hi, hpred⟩ := jsFindIndex_eq_some hfind
  obtain ⟨-, htr', -, -⟩ := matchesFields_iff.mp hpred
  rw [sumSpecFor_modifyAt r acc i _ hi, htr', htr, if_pos rfl]

theorem matchesFields_of_preservesCore {mp x y : ProcessedProduct}
    (h : PreservesCore x y) : matchesFields mp y = matchesFields mp x := by
  obtain ⟨h₁, h₂, h₃, h₄, -, -, -, -⟩ := h
  simp [matchesFields, h₁, h₂, h₃, h₄]

theorem coreRel_exists_match {tpp0 acc : List ProcessedProduct} {mp : ProcessedProduct}
    (h : CoreRel tpp0 acc) (hx : ∃ x ∈ tpp0, matchesFields mp x = true) :
    ∃ y ∈ acc, matchesFields mp y = true := by
  induction h with
  | nil => simp at hx
  | cons hpq htail ih =>
    obtain ⟨x, hx', hpx⟩ := hx
    rcases List.mem_cons.mp hx' with rfl | hmem
    · exact ⟨_, List.mem_cons_self _ _, by rw [matchesFields_of_preservesCore hpq, hpx]⟩
    · obtain ⟨y, hy, hpy⟩ := ih ⟨x, hmem, hpx⟩
      exact ⟨y, List.mem_cons_of_mem _ hy, hpy⟩

theorem sumSpecFor_foldl_ne {r r' : String} (b c : ℚ) (hne : r' ≠ r) :
    ∀ (ms acc : List ProcessedProduct), (∀ mp ∈ ms, mp.tariffRate = r') →
      sumSpecFor r (ms.foldl (applyRuleToProduct b c) acc) = sumSpecFor r acc := by
  intro ms
  induction ms with
  | nil => intro acc _; rfl
  | cons mp ms ih =>
    intro acc hms
    have h1 : mp.tariffRate ≠ r := by
      rw [hms mp (List.mem_cons_self _ _)]
      exact hne
    rw [List.foldl_cons, ih _ fun x hx => hms x (List.mem_cons_of_mem _ hx),
      sumSpecFor_applyRule_ne b c acc h1]

theorem sumSpecFor_foldl_eq {r : String} (b c : ℚ) (tpp0 : List ProcessedProduct) :
    ∀ (ms acc : List ProcessedProduct), CoreRel tpp0 acc →
      (∀ mp ∈ ms, mp.tariffRate = r ∧ ∃ x ∈ tpp0, matchesFields mp x = true) →
      sumSpecFor r (ms.foldl (applyRuleToProduct b c) acc) =
        sumSpecFor r acc +
          ((ms.map fun mp => (mp.costAfterGeneralServices / b) * c).sum) := by
  intro ms
  induction ms with
  | nil => intro acc _ _; simp
  | cons mp ms ih =>
    intro acc hrel hms
    obtain ⟨htr, hex⟩ := hms mp (List.mem_cons_self _ _)
    have hex' := coreRel_exists_match hrel hex
    have hrel' : CoreRel tpp0 (applyRuleToProduct b c acc mp) :=
      coreRel_trans hrel (coreRel_applyRuleToProduct b c acc mp)
    rw [List.foldl_cons, ih _ hrel' fun x hx => hms x (List.mem_cons_of_mem _ hx),
      sumSpecFor_applyRule_eq b c acc htr hex']
    simp [add_assoc, add_comm]

/-! ### Transfer along `CoreRel` -/

theorem coreRel_mem_right {l l' : List ProcessedProduct} (h : CoreRel l l')
    {q : ProcessedProduct} (hq : q ∈ l') : ∃ p ∈ l, PreservesCore p q := by
  induction h with
  | nil => cases hq
  | cons hpq htail ih =>
    rcases List.mem_cons.mp hq with rfl | hmem
    · exact ⟨_, List.mem_cons_self _ _, hpq⟩
    · obtain ⟨p, hp, hrel⟩ := ih hmem
      exact ⟨p, List.mem_cons_of_mem _ hp, hrel⟩

theorem coreRel_filter_cAGS {l l' : List ProcessedProduct} (h : CoreRel l l') (r : String) :
    ((l'.filter (fun p => p.tariffRate == r)).map
        ProcessedProduct.costAfterGeneralServices) =
      ((l.filter (fun p => p.tariffRate == r)).map
        ProcessedProduct.costAfterGeneralServices) := by
  induction h with
  | nil => rfl
  | @cons p q l₁ l₂ hpq htail ih =>
    obtain ⟨-, -, -, htr, -, hcags, -, -⟩ := hpq
    simp only [List.filter_cons, htr]
    cases hb : (p.tariffRate == r)
    · simp [hb, ih]
    · simp [hb, ih, hcags]

theorem coreRel_map_gen {l l' : List ProcessedProduct} (h : CoreRel l l') :
    l'.map ProcessedProduct.allocatedGeneralCostSum =
      l.map ProcessedProduct.allocatedGeneralCostSum := by
  induction h with
  | nil => rfl
  | @cons p q l₁ l₂ hpq htail ih =>
    obtain ⟨-, -, -, -, -, -, hgen, -⟩ := hpq
    simp [ih, hgen]

/-! ### Sum of specific allocations across one rule step -/

theorem mem_matching_tariffRate {tpp : List ProcessedProduct} {r : String}
    {mp : ProcessedProduct} (h : mp ∈ tpp.filter (fun p => p.tariffRate == r)) :
    mp.tariffRate = r :=
  beq_iff_eq.mp (List.mem_filter.mp h).2

theorem sumSpecFor_ruleStep_ne (services : List Service) (tpp : List ProcessedProduct)
    {r r' : String} (hne : r' ≠ r) :
    sumSpecFor r (ruleStep services tpp r') = sumSpecFor r tpp := by
  simp only [ruleStep]
  split
  · rfl
  · split
    · exact sumSpecFor_foldl_ne _ _ hne _ tpp fun mp hmp => mem_matching_tariffRate hmp
    · rfl

theorem sumSpecFor_ruleStep_eq (services : List Service) (tpp : List ProcessedProduct)
    {r : String}
    (hm : ¬(tpp.filter (fun p => p.tariffRate == r)).length = 0)
    (hc : 0 < totalCostForRule services r)
    (hb : 0 < (((tpp.filter (fun p => p.tariffRate == r)).map
        ProcessedProduct.costAfterGeneralServices).sum)) :
    sumSpecFor r (ruleStep services tpp r) =
      sumSpecFor r tpp + totalCostForRule services r := by
  simp only [ruleStep]
  rw [if_neg hm, if_pos ⟨hc, hb⟩]
  rw [sumSpecFor_foldl_eq _ _ tpp _ tpp (coreRel_refl tpp) ?_]
  · congr 1
    have hfe : (fun mp : ProcessedProduct =>
          mp.costAfterGeneralServices /
              (((tpp.filter (fun p => p.tariffRate == r)).map
                ProcessedProduct.costAfterGeneralServices).sum) *
            totalCostForRule services r) =
        fun mp : ProcessedProduct =>
          mp.costAfterGeneralServices *
            (totalCostForRule services r /
              (((tpp.filter (fun p => p.tariffRate == r)).map
                ProcessedProduct.costAfterGeneralServices).sum)) := by
      funext mp
      rw [div_mul_eq_mul_div, mul_div_assoc]
    rw [hfe, List.sum_map_mul_right, mul_comm, div_mul_cancel₀ _ (ne_of_gt hb)]
  · intro mp hmp
    exact ⟨mem_matching_tariffRate hmp,
      mp, List.mem_of_mem_filter hmp, matchesFields_self mp⟩

/-! ### The list of specific rules is duplicate-free -/

theorem mem_insertUnique {acc : List String} {x y : String} :
    y ∈ insertUnique acc x ↔ y ∈ acc ∨ y = x := by
  unfold insertUnique
  split
  · rename_i hx
    constructor
    · exact Or.inl
    · rintro (h | rfl)
      · exact h
      · exact hx
  · simp

theorem mem_foldl_insertUnique :
    ∀ (l acc : List String) (x : String), x ∈ l.foldl insertUnique acc ↔ x ∈ acc ∨ x ∈ l := by
  intro l
  induction l with
  | nil => simp
  | cons y ys ih =>
    intro acc x
    rw [List.foldl_cons, ih, mem_insertUnique]
    simp only [List.mem_cons]
    tauto

theorem mem_jsSetDedup {l : List String} {x : String} : x ∈ jsSetDedup l ↔ x ∈ l := by
  unfold jsSetDedup
  rw [mem_foldl_insertUnique]
  simp

theorem foldl_insertUnique_nodup :
    ∀ (l acc : List String), acc.Nodup → (l.foldl insertUnique acc).Nodup := by
  intro l
  induction l with
  | nil => exact fun acc h => h
  | cons x xs ih =>
    intro acc h
    rw [List.foldl_cons]
    apply ih
    unfold insertUnique
    split
    · exact h
    · rename_i hx
      rw [List.nodup_append]
      exact ⟨h, List.nodup_singleton x, fun a ha hax => by
        simp at hax
        subst hax
        exact hx ha⟩

theorem jsSetDedup_nodup (l : List String) : (jsSetDedup l).Nodup :=
  foldl_insertUnique_nodup l [] List.nodup_nil

theorem specificTariffRules_nodup (services : List Service) :
    (specificTariffRules services).Nodup :=
  jsSetDedup_nodup _

theorem mem_specificTariffRules {services : List Service} {r : String} :
    r ∈ specificTariffRules services ↔
      ∃ s ∈ services, jsToLower s.distributionRule ≠ "comun" ∧
        s.distributionRule = r := by
  unfold specificTariffRules
  rw [mem_jsSetDedup]
  simp [List.mem_map, List.mem_filter, bne_iff_ne]
  tauto

theorem sumSpecFor_foldl_ruleStep_not_mem (services : List Service) {r : String} :
    ∀ (rules : List String) (tpp : List ProcessedProduct), r ∉ rules →
      sumSpecFor r (rules.foldl (ruleStep services) tpp) = sumSpecFor r tpp := by
  intro rules
  induction rules with
  | nil => intro tpp _; rfl
  | cons r' rules ih =>
    intro tpp hr
    have h1 : r' ≠ r := fun h => hr (h ▸ List.mem_cons_self _ _)
    rw [List.foldl_cons, ih _ fun h => hr (List.mem_cons_of_mem _ h),
      sumSpecFor_ruleStep_ne services tpp h1]

/-! ### Non-negativity through phase 2 -/

theorem totalCostForRule_nonneg {services : List Service} {r : String}
    (h : ∀ s ∈ services, 0 ≤ s.cost) : 0 ≤ totalCostForRule services r := by
  apply List.sum_nonneg
  intro x hx
  obtain ⟨s, hs, rfl⟩ := List.mem_map.mp hx
  exact h s (List.mem_of_mem_filter hs)

theorem spec_nonneg_modifyAt {l : List ProcessedProduct} {i : ℕ} {δ : ℚ} (hδ : 0 ≤ δ)
    (hl : ∀ p ∈ l, 0 ≤ p.allocatedSpecificCostSum) :
    ∀ p ∈ modifyAt l i (specUpdate δ), 0 ≤ p.allocatedSpecificCostSum := by
  intro p hp
  rcases mem_modifyAt hp with h | ⟨q, hq, rfl⟩
  · exact hl p h
  · simpa [specUpdate] using add_nonneg (hl q hq) hδ

theorem spec_nonneg_applyRule {b c : ℚ} {acc : List ProcessedProduct}
    {mp : ProcessedProduct} (hb : 0 < b) (hc : 0 ≤ c)
    (hmp : 0 ≤ mp.costAfterGeneralServices)
    (hacc : ∀ p ∈ acc, 0 ≤ p.allocatedSpecificCostSum) :
    ∀ p ∈ applyRuleToProduct b c acc mp, 0 ≤ p.allocatedSpecificCostSum := by
  unfold applyRuleToProduct
  cases jsFindIndex (matchesFields mp) acc with
  | none => exact hacc
  | some i =>
    exact spec_nonneg_modifyAt (mul_nonneg (div_nonneg hmp hb.le) hc) hacc

theorem spec_nonneg_foldl {b c : ℚ} (hb : 0 < b) (hc : 0 ≤ c) :
    ∀ (ms acc : List ProcessedProduct),
      (∀ mp ∈ ms, 0 ≤ mp.costAfterGeneralServices) →
      (∀ p ∈ acc, 0 ≤ p.allocatedSpecificCostSum) →
      ∀ p ∈ ms.foldl (applyRuleToProduct b c) acc, 0 ≤ p.allocatedSpecificCostSum := by
  intro ms
  induction ms with
  | nil => exact fun acc _ hacc => hacc
  | cons mp ms ih =>
    intro acc hms hacc
    rw [List.foldl_cons]
    exact ih _ (fun x hx => hms x (List.mem_cons_of_mem _ hx))
      (spec_nonneg_applyRule hb hc (hms mp (List.mem_cons_self _ _)) hacc)

theorem cAGS_nonneg_transfer {tpp tpp' : List ProcessedProduct} (hrel : CoreRel tpp tpp')
    (h : ∀ p ∈ tpp, 0 ≤ p.costAfterGeneralServices) :
    ∀ p ∈ tpp', 0 ≤ p.costAfterGeneralServices := by
  intro q hq
  obtain ⟨p, hp, hpq⟩ := coreRel_mem_right hrel hq
  rw [hpq.2.2.2.2.2.1]
  exact h p hp

theorem spec_nonneg_ruleStep {services : List Service} {tpp : List ProcessedProduct}
    {r : String} (hserv : ∀ s ∈ services, 0 ≤ s.cost)
    (hcags : ∀ p ∈ tpp, 0 ≤ p.costAfterGeneralServices)
    (hspec : ∀ p ∈ tpp, 0 ≤ p.allocatedSpecificCostSum) :
    ∀ p ∈ ruleStep services tpp r, 0 ≤ p.allocatedSpecificCostSum := by
  simp only [ruleStep]
  split
  · exact hspec
  · split
    · rename_i hcond
      exact spec_nonneg_foldl hcond.2 (totalCostForRule_nonneg hserv) _ tpp
        (fun mp hmp => hcags mp (List.mem_of_mem_filter hmp)) hspec
    · exact hspec

theorem spec_nonneg_foldl_ruleStep {services : List Service}
    (hserv : ∀ s ∈ services, 0 ≤ s.cost) :
    ∀ (rules : List String) (tpp : List ProcessedProduct),
      (∀ p ∈ tpp, 0 ≤ p.costAfterGeneralServices) →
      (∀ p ∈ tpp, 0 ≤ p.allocatedSpecificCostSum) →
      ∀ p ∈ rules.foldl (ruleStep services) tpp, 0 ≤ p.allocatedSpecificCostSum := by
  intro rules
  induction rules with
  | nil => exact fun tpp _ hspec => hspec
  | cons r rules ih =>
    intro tpp hcags hspec
    rw [List.foldl_cons]
    exact ih _ (cAGS_nonneg_transfer (coreRel_ruleStep services tpp r) hcags)
      (spec_nonneg_ruleStep hserv hcags hspec)

theorem distributeGeneral_cases (products : List Product) (services : List Service) :
    (0 < totalComunServiceCost services ∧
        0 < totalInitialProductValue (products.map initProcessed) ∧
        distributeGeneral products services =
          (products.map initProcessed).map
            (applyGeneral (totalComunServiceCost services)
              (totalInitialProductValue (products.map initProcessed)))) ∨
      distributeGeneral products services = products.map initProcessed := by
  by_cases h : 0 < totalComunServiceCost services ∧
      0 < totalInitialProductValue (products.map initProcessed)
  · exact Or.inl ⟨h.1, h.2, distributeGeneral_of_pos h.1 h.2⟩
  · refine Or.inr ?_
    simp only [distributeGeneral]
    rw [if_neg h]

theorem distributeGeneral_init_le_cAGS {products : List Product} {services : List Service}
    (hp : ∀ p ∈ products, 0 ≤ p.unitCost ∧ 0 ≤ p.quantity) :
    ∀ q ∈ distributeGeneral products services,
      0 ≤ q.initialCost ∧ q.initialCost ≤ q.costAfterGeneralServices := by
  intro q hq
  rcases distributeGeneral_cases products services with ⟨hg, ht, heq⟩ | heq
  · rw [heq, List.map_map] at hq
    obtain ⟨p, hpmem, rfl⟩ := List.mem_map.mp hq
    have hinit : (0 : ℚ) ≤ p.unitCost * p.quantity :=
      mul_nonneg (hp p hpmem).1 (hp p hpmem).2
    have hshare : 0 ≤ p.unitCost * p.quantity /
        totalInitialProductValue (products.map initProcessed) *
        totalComunServiceCost services :=
      mul_nonneg (div_nonneg hinit ht.le) hg.le
    constructor
    · simpa [applyGeneral, initProcessed] using hinit
    · simp only [Function.comp, applyGeneral, initProcessed]
      linarith
  · rw [heq] at hq
    obtain ⟨p, hpmem, rfl⟩ := List.mem_map.mp hq
    have hinit : (0 : ℚ) ≤ p.unitCost * p.quantity :=
      mul_nonneg (hp p hpmem).1 (hp p hpmem).2
    exact ⟨by simpa [initProcessed] using hinit, by simp [initProcessed]⟩

/-! ### An orphan specific rule is inert -/

theorem totalComunServiceCost_middle {l₁ l₂ : List Service} {s : Service}
    (hlow : jsToLower s.distributionRule ≠ "comun") :
    totalComunServiceCost (l₁ ++ s :: l₂) = totalComunServiceCost (l₁ ++ l₂) := by
  unfold totalComunServiceCost comunServices
  have hb : (jsToLower s.distributionRule == "comun") = false :=
    beq_eq_false_iff_ne.mpr hlow
  simp [List.filter_append, List.filter_cons, hb]

theorem distributeGeneral_middle {products : List Product} {l₁ l₂ : List Service}
    {s : Service} (hlow : jsToLower s.distributionRule ≠ "comun") :
    distributeGeneral products (l₁ ++ s :: l₂) = distributeGeneral products (l₁ ++ l₂) := by
  simp only [distributeGeneral, totalComunServiceCost_middle hlow]

theorem totalCostForRule_middle {l₁ l₂ : List Service} {s : Service} {r : String}
    (hne : s.distributionRule ≠ r) :
    totalCostForRule (l₁ ++ s :: l₂) r = totalCostForRule (l₁ ++ l₂) r := by
  unfold totalCostForRule servicesForRule
  have hb : (s.distributionRule == r) = false := beq_eq_false_iff_ne.mpr hne
  simp [List.filter_append, List.filter_cons, hb]

theorem ruleStep_services_congr {svcA svcB : List Service} {r : String}
    (h : totalCostForRule svcA r = totalCostForRule svcB r)
    (tpp : List ProcessedProduct) : ruleStep svcA tpp r = ruleStep svcB tpp r := by
  simp only [ruleStep, h]

theorem foldl_ruleStep_congr {svcA svcB : List Service} :
    ∀ (rules : List String) (tpp : List ProcessedProduct),
      (∀ r ∈ rules, totalCostForRule svcA r = totalCostForRule svcB r) →
      rules.foldl (ruleStep svcA) tpp = rules.foldl (ruleStep svcB) tpp := by
  intro rules
  induction rules with
  | nil => intro tpp _; rfl
  | cons r rules ih =>
    intro tpp h
    rw [List.foldl_cons, List.foldl_cons,
      ruleStep_services_congr (h r (List.mem_cons_self _ _)) tpp]
    exact ih _ fun x hx => h x (List.mem_cons_of_mem _ hx)

theorem ruleStep_no_match {services : List Service} {tpp : List ProcessedProduct}
    {r : String} (h : ∀ p ∈ tpp, p.tariffRate ≠ r) : ruleStep services tpp r = tpp := by
  have hfil : tpp.filter (fun p => p.tariffRate == r) = [] := by
    rw [List.filter_eq_nil_iff]
    intro p hp
    simp [beq_iff_eq]
    exact h p hp
  simp only [ruleStep, hfil]
  simp

theorem tariffRate_ne_transfer {tpp tpp' : List ProcessedProduct} (hrel : CoreRel tpp tpp')
    {rs : String} (h : ∀ p ∈ tpp, p.tariffRate ≠ rs) : ∀ p ∈ tpp', p.tariffRate ≠ rs := by
  intro q hq
  obtain ⟨p, hp, hpq⟩ := coreRel_mem_right hrel hq
  rw [hpq.2.2.2.1]
  exact h p hp

theorem foldl_ruleStep_filter_ne (services : List Service) (rs : String) :
    ∀ (rules : List String) (tpp : List ProcessedProduct),
      (∀ p ∈ tpp, p.tariffRate ≠ rs) →
      rules.foldl (ruleStep services) tpp =
        (rules.filter (fun r => !(r == rs))).foldl (ruleStep services) tpp := by
  intro rules
  induction rules with
  | nil => intro tpp _; rfl
  | cons r rules ih =>
    intro tpp htpp
    by_cases hr : r = rs
    · subst hr
      rw [List.foldl_cons, ruleStep_no_match htpp]
      have hfil : (r :: rules).filter (fun x => !(x == r)) =
          rules.filter (fun x => !(x == r)) := by
        simp [List.filter_cons]
      rw [hfil]
      exact ih tpp htpp
    · have hfil : (r :: rules).filter (fun x => !(x == rs)) =
          r :: rules.filter (fun x => !(x == rs)) := by
        simp [List.filter_cons, hr]
      rw [List.foldl_cons, hfil, List.foldl_cons]
      exact ih (ruleStep services tpp r)
        (tariffRate_ne_transfer (coreRel_ruleStep services tpp r) htpp)

theorem filter_insertUnique_pos {q : String → Bool} {x : String} (hq : q x = true)
    (acc : List String) :
    (insertUnique acc x).filter q = insertUnique (acc.filter q) x := by
  unfold insertUnique
  by_cases hx : x ∈ acc
  · rw [if_pos hx, if_pos (List.mem_filter.mpr ⟨hx, hq⟩)]
  · rw [if_neg hx, if_neg fun h => hx (List.mem_of_mem_filter h)]
    simp [List.filter_append, hq]

theorem filter_insertUnique_neg {q : String → Bool} {x : String} (hq : q x = false)
    (acc : List String) : (insertUnique acc x).filter q = acc.filter q := by
  unfold insertUnique
  by_cases hx : x ∈ acc
  · rw [if_pos hx]
  · rw [if_neg hx]
    simp [List.filter_append, hq]

theorem filter_foldl_insertUnique (q : String → Bool) :
    ∀ (l acc : List String),
      (l.foldl insertUnique acc).filter q = (l.filter q).foldl insertUnique (acc.filter q) := by
  intro l
  induction l with
  | nil => intro acc; rfl
  | cons x xs ih =>
    intro acc
    rw [List.foldl_cons, ih]
    cases hq : q x
    · rw [List.filter_cons_of_neg (by simp [hq]), filter_insertUnique_neg hq]
    · rw [List.filter_cons_of_pos (by simp [hq]), List.foldl_cons,
        filter_insertUnique_pos hq]

theorem jsSetDedup_filter (q : String → Bool) (l : List String) :
    (jsSetDedup l).filter q = jsSetDedup (l.filter q) := by
  unfold jsSetDedup
  exact filter_foldl_insertUnique q l []

theorem specificTariffRules_middle_filter {l₁ l₂ : List Service} {s : Service}
    (hlow : jsToLower s.distributionRule ≠ "comun") :
    (specificTariffRules (l₁ ++ s :: l₂)).filter (fun r => !(r == s.distributionRule)) =
      (specificTariffRules (l₁ ++ l₂)).filter (fun r => !(r == s.distributionRule)) := by
  unfold specificTariffRules
  rw [jsSetDedup_filter, jsSetDedup_filter]
  congr 1
  have hs : (jsToLower s.distributionRule != "comun") = true := by
    simp [bne_iff_ne, hlow]
  simp only [List.filter_append, List.filter_cons, hs, if_true, List.map_append,
    List.map_cons]
  simp [List.filter_append, List.filter_cons]

/-! ### Error reporting of the line parsers -/

theorem parseProductLine_error_line {i : ℕ} {line : String} {e : ParseError}
    (h : parseProductLine i line = Except.error e) : e.line = i + 1 := by
  unfold parseProductLine at h
  repeat' split at h
  all_goals first
    | (injection h with h2; rw [← h2])
    | injection h

theorem parseServiceLine_error_line {i : ℕ} {line : String} {e : ParseError}
    (h : parseServiceLine i line = Except.error e) : e.line = i + 1 := by
  unfold parseServiceLine at h
  repeat' split at h
  all_goals first
    | (injection h with h2; rw [← h2])
    | injection h

theorem parseProductLines_error :
    ∀ (ls : List String) (i : ℕ) (e : ParseError),
      parseProductLines i ls = Except.error e →
      ∃ k, ∃ hk : k < ls.length, e.line = i + k + 1 ∧
        parseProductLine (i + k) (ls.get ⟨k, hk⟩) = Except.error e ∧
        ∀ j, j < k → ∃ hj : j < ls.length, ∃ p,
          parseProductLine (i + j) (ls.get ⟨j, hj⟩) = Except.ok p := by
  intro ls
  induction ls with
  | nil => intro i e h; exact absurd h (by simp [parseProductLines])
  | cons line rest ih =>
    intro i e h
    simp only [parseProductLines] at h
    split at h
    · rename_i e' heq
      injection h with h2
      subst h2
      refine ⟨0, Nat.succ_pos _, by simpa using parseProductLine_error_line heq,
        by simpa using heq, fun j hj => absurd hj (Nat.not_lt_zero j)⟩
    · rename_i p heq
      split at h
      · rename_i e' hr
        injection h with h2
        subst h2
        obtain ⟨k, hk, hline, herr, hprev⟩ := ih (i + 1) e' hr
        have harith : i + 1 + k = i + (k + 1) := by omega
        refine ⟨k + 1, Nat.succ_lt_succ hk, by omega, ?_, ?_⟩
        · rw [← harith]
          exact herr
        · intro j hj
          cases j with
          | zero => exact ⟨Nat.succ_pos _, p, by simpa using heq⟩
          | succ j' =>
            obtain ⟨hj', p', hp'⟩ := hprev j' (Nat.lt_of_succ_lt_succ hj)
            refine ⟨Nat.succ_lt_succ hj', p', ?_⟩
            have harith2 : i + (j' + 1) = i + 1 + j' := by omega
            rw [harith2]
            exact hp'
      · exact absurd h (by simp)

theorem parseServiceLines_error :
    ∀ (ls : List String) (i : ℕ) (e : ParseError),
      parseServiceLines i ls = Except.error e →
      ∃ k, ∃ hk : k < ls.length, e.line = i + k + 1 ∧
        parseServiceLine (i + k) (ls.get ⟨k, hk⟩) = Except.error e ∧
        ∀ j, j < k → ∃ hj : j < ls.length, ∃ s,
          parseServiceLine (i + j) (ls.get ⟨j, hj⟩) = Except.ok s := by
  intro ls
  induction ls with
  | nil => intro i e h; exact absurd h (by simp [parseServiceLines])
  | cons line rest ih =>
    intro i e h
    simp only [parseServiceLines] at h
    split at h
    · rename_i e' heq
      injection h with h2
      subst h2
      refine ⟨0, Nat.succ_pos _, by simpa using parseServiceLine_error_line heq,
        by simpa using heq, fun j hj => absurd hj (Nat.not_lt_zero j)⟩
    · rename_i s heq
      split at h
      · rename_i e' hr
        injection h with h2
        subst h2
        obtain ⟨k, hk, hline, herr, hprev⟩ := ih (i + 1) e' hr
        have harith : i + 1 + k = i + (k + 1) := by omega
        refine ⟨k + 1, Nat.succ_lt_succ hk, by omega, ?_, ?_⟩
        · rw [← harith]
          exact herr
        · intro j hj
          cases j with
          | zero => exact ⟨Nat.succ_pos _, s, by simpa using heq⟩
          | succ j' =>
            obtain ⟨hj', s', hs'⟩ := hprev j' (Nat.lt_of_succ_lt_succ hj)
            refine ⟨Nat.succ_lt_succ hj', s', ?_⟩
            have harith2 : i + (j' + 1) = i + 1 + j' := by omega
            rw [harith2]
            exact hs'
      · exact absurd h (by simp)

/-! ### The claims -/

/-- C1: when the general pool and the total initial value are both positive,
every output product's `allocatedGeneralCostSum` is the value-weighted share
`(initialCost / totalInitialValue) * totalGeneralCost`, and those shares sum
to exactly the general pool (exact rational arithmetic). -/
theorem phase1_proportional_and_conserved (products : List Product)
    (services : List Service)
    (hg : 0 < totalComunServiceCost services)
    (ht : 0 < totalInitialProductValue (products.map initProcessed)) :
    (∀ q ∈ calculateDistributedCosts products services,
      q.allocatedGeneralCostSum =
        (q.initialCost / totalInitialProductValue (products.map initProcessed)) *
          totalComunServiceCost services) ∧
    ((calculateDistributedCosts products services).map
        ProcessedProduct.allocatedGeneralCostSum).sum = totalComunServiceCost services := by
  have hrel := coreRel_calculate products services
  constructor
  · intro q hq
    obtain ⟨p, hpmem, hprel⟩ := coreRel_mem_right hrel hq
    obtain ⟨-, -, -, -, hic, -, hgen, -⟩ := hprel
    rw [hgen, hic]
    exact distributeGeneral_general_alloc hg ht p hpmem
  · rw [coreRel_map_gen hrel]
    exact distributeGeneral_sum_general_alloc hg ht

/-- Witness for C1 at the one-product `"comun"` scenario. -/
theorem phase1_proportional_and_conserved_witness :
    0 < totalComunServiceCost [⟨"P1", "Freight", 50, "comun"⟩] ∧
    0 < totalInitialProductValue
        (([⟨"Widget", 10, 5, "R1"⟩] : List Product).map initProcessed) ∧
    ((calculateDistributedCosts [⟨"Widget", 10, 5, "R1"⟩]
          [⟨"P1", "Freight", 50, "comun"⟩]).map
        ProcessedProduct.allocatedGeneralCostSum).sum =
      totalComunServiceCost [⟨"P1", "Freight", 50, "comun"⟩] :=
  ⟨by with_unfolding_all decide, by with_unfolding_all decide,
    (phase1_proportional_and_conserved [⟨"Widget", 10, 5, "R1"⟩]
      [⟨"P1", "Freight", 50, "comun"⟩]
      (by with_unfolding_all decide) (by with_unfolding_all decide)).2⟩

/-- C3: after processing, every output product satisfies
`initialCost = unitCost * quantity`,
`costAfterGeneralServices = initialCost + allocatedGeneralCostSum` and
`finalCost = initialCost + allocatedGeneralCostSum + allocatedSpecificCostSum`. -/
theorem processed_product_cost_invariants (products : List Product)
    (services : List Service)
    (_hp : ∀ p ∈ products, 0 ≤ p.unitCost ∧ 0 ≤ p.quantity)
    (_hs : ∀ s ∈ services, 0 ≤ s.cost) :
    ∀ q ∈ calculateDistributedCosts products services,
      q.initialCost = q.unitCost * q.quantity ∧
      q.costAfterGeneralServices = q.initialCost + q.allocatedGeneralCostSum ∧
      q.finalCost = q.initialCost + q.allocatedGeneralCostSum +
        q.allocatedSpecificCostSum := by
  intro q hq
  obtain ⟨p, hpmem, hrel⟩ := coreRel_mem_right (coreRel_calculate products services) hq
  obtain ⟨hinit, hcags, hfinal, hspec⟩ := distributeGeneral_invariants hpmem
  obtain ⟨hn, hu, hqty, htr, hic, hca, hg, hdiff⟩ := hrel
  refine ⟨?_, ?_, ?_⟩
  · rw [hic, hu, hqty, hinit]
  · rw [hca, hic, hg, hcags]
  · rw [hic, hg]
    linarith

/-- Witness for C3 at the one-product `"comun"` scenario. -/
theorem processed_product_cost_invariants_witness :
    (∀ p ∈ ([⟨"Widget", 10, 5, "R1"⟩] : List Product), 0 ≤ p.unitCost ∧ 0 ≤ p.quantity) ∧
    (∀ s ∈ ([⟨"P1", "Freight", 50, "comun"⟩] : List Service), 0 ≤ s.cost) ∧
    (((calculateDistributedCosts [⟨"Widget", 10, 5, "R1"⟩]
          [⟨"P1", "Freight", 50, "comun"⟩]).getD 0
        ⟨"", 0, 0, "", 0, 0, 0, 0, 0⟩).finalCost =
      ((calculateDistributedCosts [⟨"Widget", 10, 5, "R1"⟩]
          [⟨"P1", "Freight", 50, "comun"⟩]).getD 0
        ⟨"", 0, 0, "", 0, 0, 0, 0, 0⟩).initialCost +
      ((calculateDistributedCosts [⟨"Widget", 10, 5, "R1"⟩]
          [⟨"P1", "Freight", 50, "comun"⟩]).getD 0
        ⟨"", 0, 0, "", 0, 0, 0, 0, 0⟩).allocatedGeneralCostSum +
      ((calculateDistributedCosts [⟨"Widget", 10, 5, "R1"⟩]
          [⟨"P1", "Freight", 50, "comun"⟩]).getD 0
        ⟨"", 0, 0, "", 0, 0, 0, 0, 0⟩).allocatedSpecificCostSum) :=
  ⟨by with_unfolding_all decide, by with_unfolding_all decide,
    (processed_product_cost_invariants [⟨"Widget", 10, 5, "R1"⟩]
      [⟨"P1", "Freight", 50, "comun"⟩]
      (by with_unfolding_all decide) (by with_unfolding_all decide) _
      (by with_unfolding_all decide)).2.2⟩

/-- C6: with no general-marked cost (`totalComunServiceCost = 0`) the
allocator still returns a result, allocates no general cost, and leaves
`costAfterGeneralServices` at `initialCost` for every product. -/
theorem zero_general_total_allocates_nothing (products : List Product)
    (services : List Service) (hg : totalComunServiceCost services = 0) :
    ∀ q ∈ calculateDistributedCosts products services,
      q.allocatedGeneralCostSum = 0 ∧ q.costAfterGeneralServices = q.initialCost := by
  intro q hq
  obtain ⟨p, hpmem, hrel⟩ := coreRel_mem_right (coreRel_calculate products services) hq
  rw [distributeGeneral_of_comun_zero hg] at hpmem
  obtain ⟨p₀, hp₀, rfl⟩ := List.mem_map.mp hpmem
  obtain ⟨-, -, -, -, hic, hca, hgen, -⟩ := hrel
  constructor
  · rw [hgen]
    simp [initProcessed]
  · rw [hca, hic]
    simp [initProcessed]

/-- Witness for C6 at the two-product specific-only scenario. -/
theorem zero_general_total_allocates_nothing_witness :
    totalComunServiceCost [⟨"X", "Tax", 30, "T1"⟩] = 0 ∧
    (((calculateDistributedCosts [⟨"A", 10, 10, "T1"⟩, ⟨"B", 20, 5, "T2"⟩]
          [⟨"X", "Tax", 30, "T1"⟩]).getD 0
        ⟨"", 0, 0, "", 0, 0, 0, 0, 0⟩).allocatedGeneralCostSum = 0 ∧
      ((calculateDistributedCosts [⟨"A", 10, 10, "T1"⟩, ⟨"B", 20, 5, "T2"⟩]
          [⟨"X", "Tax", 30, "T1"⟩]).getD 0
        ⟨"", 0, 0, "", 0, 0, 0, 0, 0⟩).costAfterGeneralServices =
      ((calculateDistributedCosts [⟨"A", 10, 10, "T1"⟩, ⟨"B", 20, 5, "T2"⟩]
          [⟨"X", "Tax", 30, "T1"⟩]).getD 0
        ⟨"", 0, 0, "", 0, 0, 0, 0, 0⟩).initialCost) :=
  ⟨by with_unfolding_all decide,
    zero_general_total_allocates_nothing [⟨"A", 10, 10, "T1"⟩, ⟨"B", 20, 5, "T2"⟩]
      [⟨"X", "Tax", 30, "T1"⟩] (by with_unfolding_all decide) _
      (by with_unfolding_all decide)⟩

/-- C9: the output list has the same length as the input product list and,
position by position, keeps `name`, `unitCost`, `quantity` and `tariffRate`. -/
theorem allocation_preserves_input_fields (products : List Product)
    (services : List Service) :
    (calculateDistributedCosts products services).length = products.length ∧
    ∀ i (hi : i < products.length)
      (hi' : i < (calculateDistributedCosts products services).length),
      ((calculateDistributedCosts products services).get ⟨i, hi'⟩).name =
          (products.get ⟨i, hi⟩).name ∧
        ((calculateDistributedCosts products services).get ⟨i, hi'⟩).unitCost =
          (products.get ⟨i, hi⟩).unitCost ∧
        ((calculateDistributedCosts products services).get ⟨i, hi'⟩).quantity =
          (products.get ⟨i, hi⟩).quantity ∧
        ((calculateDistributedCosts products services).get ⟨i, hi'⟩).tariffRate =
          (products.get ⟨i, hi⟩).tariffRate := by
  have hrel := coreRel_calculate products services
  have hlen2 := hrel.length_eq
  have hlen1 := distributeGeneral_length products services
  constructor
  · rw [← hlen2, hlen1]
  · intro i hi hi'
    have hi₀ : i < (distributeGeneral products services).length := by
      rw [hlen1]
      exact hi
    have hget := (List.forall₂_iff_get.mp hrel).2 i hi₀ hi'
    obtain ⟨hn, hu, hq, ht, -, -, -, -⟩ := hget
    obtain ⟨hn0, hu0, hq0, ht0⟩ := distributeGeneral_get_core products services i hi hi₀
    exact ⟨hn.trans hn0, hu.trans hu0, hq.trans hq0, ht.trans ht0⟩

/-- Witness for C9 at the one-product `"comun"` scenario, position 0. -/
theorem allocation_preserves_input_fields_witness :
    (calculateDistributedCosts [⟨"Widget", 10, 5, "R1"⟩]
        [⟨"P1", "Freight", 50, "comun"⟩]).length =
      ([⟨"Widget", 10, 5, "R1"⟩] : List Product).length ∧
    ((calculateDistributedCosts [⟨"Widget", 10, 5, "R1"⟩]
        [⟨"P1", "Freight", 50, "comun"⟩]).get
        ⟨0, by with_unfolding_all decide⟩).name =
      (([⟨"Widget", 10, 5, "R1"⟩] : List Product).get ⟨0, by decide⟩).name :=
  ⟨(allocation_preserves_input_fields [⟨"Widget", 10, 5, "R1"⟩]
      [⟨"P1", "Freight", 50, "comun"⟩]).1,
    ((allocation_preserves_input_fields [⟨"Widget", 10, 5, "R1"⟩]
        [⟨"P1", "Freight", 50, "comun"⟩]).2 0 (by decide)
      (by with_unfolding_all decide)).1⟩

/-- C5: with non-negative unit costs, quantities and service costs, every
output product satisfies
`initialCost ≤ costAfterGeneralServices ≤ finalCost`. -/
theorem final_cost_monotone (products : List Product) (services : List Service)
    (hp : ∀ p ∈ products, 0 ≤ p.unitCost ∧ 0 ≤ p.quantity)
    (hs : ∀ s ∈ services, 0 ≤ s.cost) :
    ∀ q ∈ calculateDistributedCosts products services,
      q.initialCost ≤ q.costAfterGeneralServices ∧
        q.costAfterGeneralServices ≤ q.finalCost := by
  intro q hq
  obtain ⟨p, hpmem, hrel⟩ := coreRel_mem_right (coreRel_calculate products services) hq
  obtain ⟨hi0, hile⟩ := distributeGeneral_init_le_cAGS hp p hpmem
  have hcags0 : ∀ x ∈ distributeGeneral products services, 0 ≤ x.costAfterGeneralServices :=
    fun x hx => le_trans (distributeGeneral_init_le_cAGS hp x hx).1
      (distributeGeneral_init_le_cAGS hp x hx).2
  have hspec0 : ∀ x ∈ distributeGeneral products services, 0 ≤ x.allocatedSpecificCostSum :=
    fun x hx => le_of_eq (distributeGeneral_invariants hx).2.2.2.symm
  have hqspec : 0 ≤ q.allocatedSpecificCostSum :=
    spec_nonneg_foldl_ruleStep hs (specificTariffRules services) _ hcags0 hspec0 q hq
  obtain ⟨-, -, -, -, hic, hca, -, hdiff⟩ := hrel
  have hpinv := distributeGeneral_invariants hpmem
  constructor
  · rw [hic, hca]
    exact hile
  · have hfin : q.finalCost - q.allocatedSpecificCostSum = q.costAfterGeneralServices := by
      rw [hdiff, hca, hpinv.2.2.2, hpinv.2.2.1, sub_zero, ← hpinv.2.1]
    linarith

/-- Witness for C5 at the two-product specific-only scenario. -/
theorem final_cost_monotone_witness :
    (∀ p ∈ ([⟨"A", 10, 10, "T1"⟩, ⟨"B", 20, 5, "T2"⟩] : List Product),
      0 ≤ p.unitCost ∧ 0 ≤ p.quantity) ∧
    (∀ s ∈ ([⟨"X", "Tax", 30, "T1"⟩] : List Service), 0 ≤ s.cost) ∧
    (((calculateDistributedCosts [⟨"A", 10, 10, "T1"⟩, ⟨"B", 20, 5, "T2"⟩]
          [⟨"X", "Tax", 30, "T1"⟩]).getD 0
        ⟨"", 0, 0, "", 0, 0, 0, 0, 0⟩).initialCost ≤
      ((calculateDistributedCosts [⟨"A", 10, 10, "T1"⟩, ⟨"B", 20, 5, "T2"⟩]
          [⟨"X", "Tax", 30, "T1"⟩]).getD 0
        ⟨"", 0, 0, "", 0, 0, 0, 0, 0⟩).costAfterGeneralServices ∧
      ((calculateDistributedCosts [⟨"A", 10, 10, "T1"⟩, ⟨"B", 20, 5, "T2"⟩]
          [⟨"X", "Tax", 30, "T1"⟩]).getD 0
        ⟨"", 0, 0, "", 0, 0, 0, 0, 0⟩).costAfterGeneralServices ≤
      ((calculateDistributedCosts [⟨"A", 10, 10, "T1"⟩, ⟨"B", 20, 5, "T2"⟩]
          [⟨"X", "Tax", 30, "T1"⟩]).getD 0
        ⟨"", 0, 0, "", 0, 0, 0, 0, 0⟩).finalCost) :=
  ⟨by with_unfolding_all decide, by with_unfolding_all decide,
    final_cost_monotone [⟨"A", 10, 10, "T1"⟩, ⟨"B", 20, 5, "T2"⟩]
      [⟨"X", "Tax", 30, "T1"⟩] (by with_unfolding_all decide)
      (by with_unfolding_all decide) _ (by with_unfolding_all decide)⟩

/-- C4: for every specific rule with positive cost and positive matching
base, the total `allocatedSpecificCostSum` held by products whose
`tariffRate` is that rule equals exactly the rule's service-cost total
(exact rational arithmetic). -/
theorem per_rule_specific_allocation_conserved (products : List Product)
    (services : List Service) (r : String)
    (hr : r ∈ specificTariffRules services)
    (hc : 0 < totalCostForRule services r)
    (hb : 0 < (((distributeGeneral products services).filter
        (fun p => p.tariffRate == r)).map
          ProcessedProduct.costAfterGeneralServices).sum) :
    sumSpecFor r (calculateDistributedCosts products services) =
      totalCostForRule services r := by
  obtain ⟨l₁, l₂, hsplit⟩ := List.append_of_mem hr
  have hnodup := specificTariffRules_nodup services
  rw [hsplit] at hnodup
  rw [List.nodup_append] at hnodup
  obtain ⟨-, h2, hdisj⟩ := hnodup
  have hrl₂ : r ∉ l₂ := (List.nodup_cons.mp h2).1
  have hrl₁ : r ∉ l₁ := fun hmem => hdisj hmem (List.mem_cons_self _ _)
  unfold calculateDistributedCosts
  rw [hsplit, List.foldl_append, List.foldl_cons]
  have hrel₁ : CoreRel (distributeGeneral products services)
      (l₁.foldl (ruleStep services) (distributeGeneral products services)) :=
    coreRel_foldl_ruleStep services l₁ _
  have hsum₁ := sumSpecFor_foldl_ruleStep_not_mem services l₁
    (distributeGeneral products services) hrl₁
  have hsum0 : sumSpecFor r (distributeGeneral products services) = 0 := by
    unfold sumSpecFor
    apply List.sum_eq_zero
    intro x hx
    obtain ⟨p, hpmem, rfl⟩ := List.mem_map.mp hx
    exact (distributeGeneral_invariants (List.mem_of_mem_filter hpmem)).2.2.2
  have hfeq := coreRel_filter_cAGS hrel₁ r
  have hb' : 0 < (((l₁.foldl (ruleStep services)
        (distributeGeneral products services)).filter
      (fun p => p.tariffRate == r)).map
        ProcessedProduct.costAfterGeneralServices).sum := by
    rw [hfeq]
    exact hb
  have hm : ¬((l₁.foldl (ruleStep services)
      (distributeGeneral products services)).filter
        (fun p => p.tariffRate == r)).length = 0 := by
    intro hlen
    rw [List.length_eq_zero] at hlen
    rw [hlen] at hb'
    simp at hb'
  rw [sumSpecFor_foldl_ruleStep_not_mem services l₂ _ hrl₂,
    sumSpecFor_ruleStep_eq services _ hm hc hb', hsum₁, hsum0, zero_add]

/-- Witness for C4 at the two-product specific-only scenario, rule `"T1"`. -/
theorem per_rule_specific_allocation_conserved_witness :
    ("T1" ∈ specificTariffRules [⟨"X", "Tax", 30, "T1"⟩]) ∧
    0 < totalCostForRule [⟨"X", "Tax", 30, "T1"⟩] "T1" ∧
    0 < (((distributeGeneral [⟨"A", 10, 10, "T1"⟩, ⟨"B", 20, 5, "T2"⟩]
          [⟨"X", "Tax", 30, "T1"⟩]).filter (fun p => p.tariffRate == "T1")).map
        ProcessedProduct.costAfterGeneralServices).sum ∧
    sumSpecFor "T1" (calculateDistributedCosts [⟨"A", 10, 10, "T1"⟩, ⟨"B", 20, 5, "T2"⟩]
        [⟨"X", "Tax", 30, "T1"⟩]) =
      totalCostForRule [⟨"X", "Tax", 30, "T1"⟩] "T1" :=
  ⟨by with_unfolding_all decide, by with_unfolding_all decide,
    by with_unfolding_all decide,
    per_rule_specific_allocation_conserved [⟨"A", 10, 10, "T1"⟩, ⟨"B", 20, 5, "T2"⟩]
      [⟨"X", "Tax", 30, "T1"⟩] "T1" (by with_unfolding_all decide)
      (by with_unfolding_all decide) (by with_unfolding_all decide)⟩

/-- C7: a service whose rule is not the general marker and matches no
product's `tariffRate` raises no error and leaves the result exactly as if
that service had been removed from the input. -/
theorem orphan_rule_service_inert (products : List Product) (l₁ l₂ : List Service)
    (s : Service) (hlow : jsToLower s.distributionRule ≠ "comun")
    (horph : ∀ p ∈ products, p.tariffRate ≠ s.distributionRule) :
    calculateDistributedCosts products (l₁ ++ s :: l₂) =
      calculateDistributedCosts products (l₁ ++ l₂) := by
  unfold calculateDistributedCosts
  rw [distributeGeneral_middle hlow]
  have htppne : ∀ p ∈ distributeGeneral products (l₁ ++ l₂),
      p.tariffRate ≠ s.distributionRule := by
    intro p hp
    rcases distributeGeneral_cases products (l₁ ++ l₂) with ⟨-, -, heq⟩ | heq
    · rw [heq, List.map_map] at hp
      obtain ⟨p₀, hp₀, rfl⟩ := List.mem_map.mp hp
      simpa [applyGeneral, initProcessed] using horph p₀ hp₀
    · rw [heq] at hp
      obtain ⟨p₀, hp₀, rfl⟩ := List.mem_map.mp hp
      simpa [initProcessed] using horph p₀ hp₀
  rw [foldl_ruleStep_filter_ne (l₁ ++ s :: l₂) s.distributionRule _ _ htppne,
    foldl_ruleStep_filter_ne (l₁ ++ l₂) s.distributionRule _ _ htppne,
    specificTariffRules_middle_filter hlow]
  apply foldl_ruleStep_congr
  intro r hrmem
  have hb2 := (List.mem_filter.mp hrmem).2
  simp only [Bool.not_eq_true'] at hb2
  exact totalCostForRule_middle fun h => beq_eq_false_iff_ne.mp hb2 h.symm

/-- Witness for C7: an orphan service `"zz"` inserted before a `"comun"`
service leaves the single-product result unchanged. -/
theorem orphan_rule_service_inert_witness :
    jsToLower (⟨"p", "x", 5, "zz"⟩ : Service).distributionRule ≠ "comun" ∧
    calculateDistributedCosts [⟨"a", 1, 1, "r"⟩]
        ([] ++ (⟨"p", "x", 5, "zz"⟩ : Service) :: [⟨"q", "y", 3, "comun"⟩]) =
      calculateDistributedCosts [⟨"a", 1, 1, "r"⟩] ([] ++ [⟨"q", "y", 3, "comun"⟩]) :=
  ⟨by with_unfolding_all decide,
    orphan_rule_service_inert [⟨"a", 1, 1, "r"⟩] [] [⟨"q", "y", 3, "comun"⟩]
      ⟨"p", "x", 5, "zz"⟩ (by with_unfolding_all decide)
      (by with_unfolding_all decide)⟩

/-- C10: each service is counted in exactly one pool -- the general pool
exactly when its rule lowercases to `"comun"`, and otherwise only the
specific group of its exact rule string; in particular, when every service
carries a case variant of `"comun"`, no specific cost is ever allocated,
whatever the products' tariff rates. -/
theorem service_pool_partition :
    (∀ (services : List Service) (s : Service), s ∈ services →
      (jsToLower s.distributionRule = "comun" →
        s ∈ comunServices services ∧
          ∀ r ∈ specificTariffRules services, s ∉ servicesForRule services r) ∧
      (jsToLower s.distributionRule ≠ "comun" →
        s ∉ comunServices services ∧
          s.distributionRule ∈ specificTariffRules services ∧
          ∀ r ∈ specificTariffRules services,
            (s ∈ servicesForRule services r ↔ r = s.distributionRule))) ∧
    (∀ (products : List Product) (services : List Service),
      (∀ s ∈ services, jsToLower s.distributionRule = "comun") →
      ∀ q ∈ calculateDistributedCosts products services,
        q.allocatedSpecificCostSum = 0) := by
  constructor
  · intro services s hmem
    constructor
    · intro hlow
      constructor
      · exact List.mem_filter.mpr ⟨hmem, by simp [hlow]⟩
      · intro r hr hin
        obtain ⟨s', -, hs'low, hs'rule⟩ := mem_specificTariffRules.mp hr
        have hsr : s.distributionRule = r :=
          beq_iff_eq.mp (List.mem_filter.mp hin).2
        rw [hs'rule, ← hsr] at hs'low
        exact hs'low hlow
    · intro hlow
      refine ⟨?_, ?_, ?_⟩
      · intro hin
        exact hlow (beq_iff_eq.mp (List.mem_filter.mp hin).2)
      · exact mem_specificTariffRules.mpr ⟨s, hmem, hlow, rfl⟩
      · intro r hr
        constructor
        · intro hin
          exact (beq_iff_eq.mp (List.mem_filter.mp hin).2).symm
        · intro hreq
          exact List.mem_filter.mpr ⟨hmem, by simp [hreq]⟩
  · intro products services hall q hq
    have hrules : specificTariffRules services = [] := by
      unfold specificTariffRules
      have hfil : services.filter
          (fun s => jsToLower s.distributionRule != "comun") = [] := by
        rw [List.filter_eq_nil_iff]
        intro s hs
        simp [hall s hs]
      rw [hfil]
      rfl
    unfold calculateDistributedCosts at hq
    rw [hrules] at hq
    exact (distributeGeneral_invariants hq).2.2.2

/-- Witness for C10: a `"COMUN"` service lands in the general pool, and with
only case-variant-`"comun"` services no specific cost is allocated even to a
product whose `tariffRate` is the literal string `"COMUN"`. -/
theorem service_pool_partition_witness :
    (⟨"p", "x", 5, "COMUN"⟩ : Service) ∈ comunServices [⟨"p", "x", 5, "COMUN"⟩] ∧
    ((calculateDistributedCosts [⟨"a", 1, 1, "COMUN"⟩] [⟨"p", "x", 5, "COMUN"⟩]).getD 0
        ⟨"", 0, 0, "", 0, 0, 0, 0, 0⟩).allocatedSpecificCostSum = 0 :=
  ⟨((service_pool_partition.1 [⟨"p", "x", 5, "COMUN"⟩] ⟨"p", "x", 5, "COMUN"⟩
      (by with_unfolding_all decide)).1 (by with_unfolding_all decide)).1,
    service_pool_partition.2 [⟨"a", 1, 1, "COMUN"⟩] [⟨"p", "x", 5, "COMUN"⟩]
      (by with_unfolding_all decide) _ (by with_unfolding_all decide)⟩

/-- C2 (evaluation at the failing input): with two fully identical product
rows sharing one specific rule, the `findIndex` relocation piles both shares
onto the first row; the outputs carry specific sums `10` and `0` (and final
costs `11` and `1`) instead of one share of `5` each. -/
theorem duplicate_products_specific_allocation_eval :
    (calculateDistributedCosts [⟨"a", 1, 1, "r"⟩, ⟨"a", 1, 1, "r"⟩]
        [⟨"p", "s", 10, "r"⟩]).map
      (fun q => (q.allocatedSpecificCostSum, q.finalCost)) = [(10, 11), (0, 1)] := by
  with_unfolding_all decide

/-- C8 (amended): blank lines are ignored -- two file texts with the same
non-blank lines parse identically -- and a parse failure reports, as its
1-based line number, the position of the first malformed line AMONG THE
NON-BLANK LINES (preceding blank lines are not counted), together with a
message naming the field in error; every earlier non-blank line parses. -/
theorem parse_error_reports_nonblank_position :
    (∀ (content : String) (e : ParseError), parseProductsFile content = Except.error e →
      ∃ k, ∃ hk : k < (nonBlankLines content).length, e.line = k + 1 ∧
        parseProductLine k ((nonBlankLines content).get ⟨k, hk⟩) = Except.error e ∧
        ∀ j, j < k → ∃ hj : j < (nonBlankLines content).length, ∃ p,
          parseProductLine j ((nonBlankLines content).get ⟨j, hj⟩) = Except.ok p) ∧
    (∀ (content : String) (e : ParseError), parseServicesFile content = Except.error e →
      ∃ k, ∃ hk : k < (nonBlankLines content).length, e.line = k + 1 ∧
        parseServiceLine k ((nonBlankLines content).get ⟨k, hk⟩) = Except.error e ∧
        ∀ j, j < k → ∃ hj : j < (nonBlankLines content).length, ∃ s,
          parseServiceLine j ((nonBlankLines content).get ⟨j, hj⟩) = Except.ok s) ∧
    (∀ c₁ c₂ : String, nonBlankLines c₁ = nonBlankLines c₂ →
      parseProductsFile c₁ = parseProductsFile c₂ ∧
        parseServicesFile c₁ = parseServicesFile c₂) := by
  refine ⟨?_, ?_, ?_⟩
  · intro content e h
    obtain ⟨k, hk, hline, herr, hprev⟩ := parseProductLines_error _ 0 e h
    refine ⟨k, hk, by simpa using hline, by simpa using herr, ?_⟩
    intro j hj
    obtain ⟨hj', p, hp⟩ := hprev j hj
    exact ⟨hj', p, by simpa using hp⟩
  · intro content e h
    obtain ⟨k, hk, hline, herr, hprev⟩ := parseServiceLines_error _ 0 e h
    refine ⟨k, hk, by simpa using hline, by simpa using herr, ?_⟩
    intro j hj
    obtain ⟨hj', s, hs⟩ := hprev j hj
    exact ⟨hj', s, by simpa using hs⟩
  · intro c₁ c₂ h
    constructor
    · unfold parseProductsFile
      rw [h]
    · unfold parseServicesFile
      rw [h]

/-- Witness for C8: `"a,1,1,r\n\nbad"` fails on its second non-blank line
(`"bad"`, physically the third line) and the error carries line number 2. -/
theorem parse_error_reports_nonblank_position_witness :
    parseProductsFile "a,1,1,r\n\nbad" = Except.error
      ⟨2, "Se esperan 4 campos (Nombre,CostoUnitario,Cantidad,TasaArancelaria)"⟩ ∧
    (∃ k, ∃ hk : k < (nonBlankLines "a,1,1,r\n\nbad").length,
      (ParseError.mk 2
          "Se esperan 4 campos (Nombre,CostoUnitario,Cantidad,TasaArancelaria)").line =
        k + 1 ∧
      parseProductLine k ((nonBlankLines "a,1,1,r\n\nbad").get ⟨k, hk⟩) = Except.error
        ⟨2, "Se esperan 4 campos (Nombre,CostoUnitario,Cantidad,TasaArancelaria)"⟩ ∧
      ∀ j, j < k → ∃ hj : j < (nonBlankLines "a,1,1,r\n\nbad").length, ∃ p,
        parseProductLine j ((nonBlankLines "a,1,1,r\n\nbad").get ⟨j, hj⟩) =
          Except.ok p) :=
  ⟨by with_unfolding_all rfl,
    parse_error_reports_nonblank_position.1 "a,1,1,r\n\nbad"
      ⟨2, "Se esperan 4 campos (Nombre,CostoUnitario,Cantidad,TasaArancelaria)"⟩
      (by with_unfolding_all rfl)⟩

/-- C8 counterexample: for the file text `"\nbad"` the malformed line
`"bad"` is physically the SECOND line of the file (a blank line precedes
it), yet the parser reports `línea 1`: the reported number counts only
non-blank lines, refuting the claim that all preceding lines are counted. -/
theorem parse_error_line_number_counterexample :
    jsSplit '\n' "\nbad" = ["", "bad"] ∧
    parseProductsFile "\nbad" = Except.error
      ⟨1, "Se esperan 4 campos (Nombre,CostoUnitario,Cantidad,TasaArancelaria)"⟩ ∧
    (1 : ℕ) ≠ 2 := by
  refine ⟨by with_unfolding_all rfl, by with_unfolding_all rfl, by decide⟩
